import Mathlib

/-!
# Pricer client: polling, retry and aggregation pipeline

A shallow embedding of `src/client/client.go` (package `main` of
`zippoxer/pricer`): `Client.logPrices`, `Client.getPrice`,
`Client.doRequests`, `Client.pushRequests` and `Client.Run`.

Conventions of the embedding.

* Goroutines communicate over unbuffered channels.  A function that ranges
  over a channel is modelled as a function of the list of values it receives;
  a function that sends on a channel is modelled by the list of values it
  sends.  A `select` on `ctx.Done()` is modelled by a Boolean telling whether
  the context was done when the `select` ran.
* Unbounded `for` loops take the list of outcomes of their blocking
  operations as input; when that list is exhausted the loop is still blocked.
* `float64` arithmetic is a parameter of `logPrices` (any type with `-`, `/`,
  `*` and the literal `100`).  `F64` is an idealised instance used to evaluate
  it: exact on finite values, IEEE-754 rules for division by zero and for
  non-finite operands.
* `int` is 64 bits wide; `time.Duration` is `int64`.
-/

namespace Pricer

/-! ## Idealised float64 -/

/-- Idealised `float64`: a finite value (an exact rational; rounding, overflow
and the sign of zero are not modelled), the two infinities, or NaN. -/
inductive F64 where
  | fin (q : ℚ)
  | posInf
  | negInf
  | nan
  deriving DecidableEq

namespace F64

/-- IEEE-754 subtraction on the idealised values. -/
def sub : F64 → F64 → F64
  | nan, _ => nan
  | _, nan => nan
  | posInf, posInf => nan
  | negInf, negInf => nan
  | posInf, _ => posInf
  | negInf, _ => negInf
  | fin _, posInf => negInf
  | fin _, negInf => posInf
  | fin a, fin b => fin (a - b)

/-- Infinity carrying the sign of `neg` (`true` is negative). -/
def inf (neg : Bool) : F64 := if neg then negInf else posInf

/-- IEEE-754 multiplication on the idealised values. -/
def mul : F64 → F64 → F64
  | nan, _ => nan
  | _, nan => nan
  | posInf, posInf => posInf
  | posInf, negInf => negInf
  | negInf, posInf => negInf
  | negInf, negInf => posInf
  | posInf, fin b => if b = 0 then nan else inf (decide (b < 0))
  | negInf, fin b => if b = 0 then nan else inf (decide (0 < b))
  | fin a, posInf => if a = 0 then nan else inf (decide (a < 0))
  | fin a, negInf => if a = 0 then nan else inf (decide (0 < a))
  | fin a, fin b => fin (a * b)

/-- IEEE-754 division on the idealised values: a non-zero finite value divided
by zero is an infinity, zero divided by zero is NaN. -/
def div : F64 → F64 → F64
  | nan, _ => nan
  | _, nan => nan
  | posInf, posInf => nan
  | posInf, negInf => nan
  | negInf, posInf => nan
  | negInf, negInf => nan
  | posInf, fin b => inf (decide (b < 0))
  | negInf, fin b => inf (decide (0 ≤ b))
  | fin _, posInf => fin 0
  | fin _, negInf => fin 0
  | fin a, fin b =>
    if b = 0 then (if a = 0 then nan else inf (decide (a < 0))) else fin (a / b)

instance : Sub F64 := ⟨sub⟩
instance : Mul F64 := ⟨mul⟩
instance : Div F64 := ⟨div⟩
instance : OfNat F64 100 := ⟨fin 100⟩

/-- The value is neither an infinity nor NaN. -/
def isFinite : F64 → Bool
  | fin _ => true
  | _ => false

end F64

/-! ## The Result Aggregator: `Client.logPrices` -/

/-- Go `type PriceResponse struct { Token string; Price float64 }`. -/
structure PriceResponse (F : Type) where
  Token : String
  Price : F
  deriving DecidableEq

/-- The arguments of one `log.Printf("%s: %.2f%s", resp.Token, resp.Price, changeStr)`
call.  `change` is `none` when `changeStr` is the empty string, and
`some (oldPrice, percent)` when it is
`fmt.Sprintf(", %.2f, %.2f%%", oldPrice, percent)`. -/
structure LogRecord (F : Type) where
  token : String
  price : F
  change : Option (F × F)
  deriving DecidableEq

/-- Go `map[string]float64`: a lookup returns the value and the `ok` flag. -/
abbrev Prices (F : Type) := String → Option F

/-- The empty map `make(map[string]float64)`. -/
def Prices.empty {F : Type} : Prices F := fun _ => none

/-- The assignment `prices[token] = price`. -/
def Prices.set {F : Type} (prices : Prices F) (token : String) (price : F) : Prices F :=
  fun k => if k = token then some price else prices k

section logPrices

variable {F : Type} [Sub F] [Div F] [Mul F] [OfNat F 100]

/-- The `changeStr` computed by the body of the loop of `logPrices`. -/
def changeStr (prices : Prices F) (resp : PriceResponse F) : Option (F × F) :=
  match prices resp.Token with
  | some oldPrice => some (oldPrice, (resp.Price - oldPrice) / oldPrice * 100)
  | none => none

/-- One iteration of the loop of `logPrices`, up to the `select`: the record
logged and the map after `prices[resp.Token] = resp.Price`. -/
def logPricesStep (prices : Prices F) (resp : PriceResponse F) : LogRecord F × Prices F :=
  (⟨resp.Token, resp.Price, changeStr prices resp⟩, prices.set resp.Token resp.Price)

/-- The loop of `logPrices` started with the map `prices`.  Each element of
the input is a response received from the channel, paired with whether
`ctx.Done()` was ready at the `select` that follows it; the loop ends when the
channel is closed and drained, or returns at the first `select` that finds the
context done. -/
def logPricesLoop (prices : Prices F) : List (PriceResponse F × Bool) → List (LogRecord F)
  | [] => []
  | (resp, ctxDone) :: rest =>
    (logPricesStep prices resp).1 ::
      (if ctxDone then [] else logPricesLoop (logPricesStep prices resp).2 rest)

/-- The map held by the loop of `logPrices` after it has run over the input
(or returned at a `select`). -/
def logPricesFinal (prices : Prices F) : List (PriceResponse F × Bool) → Prices F
  | [] => prices
  | (resp, ctxDone) :: rest =>
    if ctxDone then (logPricesStep prices resp).2
    else logPricesFinal (logPricesStep prices resp).2 rest

/-- Go `Client.logPrices`: the records it logs. -/
def logPrices (priceResponses : List (PriceResponse F × Bool)) : List (LogRecord F) :=
  logPricesLoop Prices.empty priceResponses

end logPrices

/-! ## The worker: `Client.getPrice` and `Client.doRequests` -/

/-- One iteration of the loop of `getPrice`: whether the context passed to
`getPrice` was already done when the iteration started, and what
`pricer.Price(ctx, &pb.PriceRequest{Token: token})` returned (an error, or a
reply carrying `r.Price`).  The code hands the context to the call and looks at
nothing but the returned error. -/
structure Attempt (F : Type) where
  ctxDone : Bool
  result : Except String F

/-- What a run of `getPrice` did: the number of `pricer.Price` calls, the
number of receives from `c.retryTicker.C`, and the returned pair
`(price, err)`; `ret` is `none` while the loop has not returned. -/
structure GetPriceRun (F : Type) where
  attempts : Nat
  waits : Nat
  ret : Option (F × Option String)

/-- Go `Client.getPrice`, as a function of the successive iterations of its
loop.  A failed call logs, receives from the retry ticker and continues; a
successful call sets `price = r.Price`, breaks, and `price, nil` is returned. -/
def getPrice {F : Type} : List (Attempt F) → GetPriceRun F
  | [] => ⟨0, 0, none⟩
  | ⟨_, .error _⟩ :: rest =>
    let r := getPrice rest
    ⟨r.attempts + 1, r.waits + 1, r.ret⟩
  | ⟨_, .ok price⟩ :: _ => ⟨1, 0, some (price, none)⟩

/-- The iterations of `getPrice` in which `pricer.Price` fails: `errs` gives,
for each, the state of the context and the error. -/
def failures (F : Type) (errs : List (Bool × String)) : List (Attempt F) :=
  errs.map fun e => ⟨e.1, .error e.2⟩

/-- A token received from the request channel by a worker, with the
iterations of the `getPrice` call made for it and whether `ctx.Done()` was
ready at the `select` after the response was sent. -/
structure WorkItem (F : Type) where
  token : String
  calls : List (Attempt F)
  ctxDone : Bool

/-- Where a worker is at the end of the modelled run: it left the loop (the
channel was closed, or the `select` found the context done) and ran the
deferred `wg.Done`; it is still inside `getPrice`; or it called `log.Fatalf`. -/
inductive WorkerStatus where
  | exited
  | inGetPrice
  | fatal (msg : String)
  deriving DecidableEq

/-- What a run of `doRequests` did: the responses sent, the total number of
`pricer.Price` calls, and the final status. -/
structure WorkerRun (F : Type) where
  responses : List (PriceResponse F)
  attempts : Nat
  status : WorkerStatus

/-- Go `Client.doRequests`, as a function of the tokens received from the
request channel. -/
def doRequests {F : Type} : List (WorkItem F) → WorkerRun F
  | [] => ⟨[], 0, .exited⟩
  | item :: rest =>
    let g := getPrice item.calls
    match g.ret with
    | none => ⟨[], g.attempts, .inGetPrice⟩
    | some (_, some err) => ⟨[], g.attempts, .fatal err⟩
    | some (price, none) =>
      if item.ctxDone then ⟨[⟨item.token, price⟩], g.attempts, .exited⟩
      else
        let r := doRequests rest
        ⟨⟨item.token, price⟩ :: r.responses, g.attempts + r.attempts, r.status⟩

/-! ## The producer: `Client.pushRequests` -/

/-- Go `strings.Split` of a list of characters at the separator `sep`: the
pieces between the separators; a text without separator, the empty text
included, gives one piece. -/
def splitChars (sep : Char) : List Char → List (List Char)
  | [] => [[]]
  | c :: cs =>
    if c = sep then [] :: splitChars sep cs
    else
      match splitChars sep cs with
      | [] => [[c]]
      | w :: ws => (c :: w) :: ws

/-- Go `strings.Split(s, ",")`. -/
def Split (s : String) : List String :=
  (splitChars ',' s.data).map String.mk

/-- Go `int64` wrap-around of an integer. -/
def int64 (n : Int) : Int := (n + 2 ^ 63) % 2 ^ 64 - 2 ^ 63

/-- Go `time.Second`, in nanoseconds. -/
def Second : Int := 1000000000

/-- The argument of `time.NewTicker` in `pushRequests`:
`time.Duration(*interval) * time.Second`, an `int64` product. -/
def tickerDuration (interval : Int) : Int := int64 (int64 interval * Second)

/-- What the `select` of `pushRequests` received. -/
inductive Select where
  | tick
  | ctxDone
  deriving DecidableEq

/-- What `pushRequests` does on the request channel and at its `select`. -/
inductive ProducerEvent where
  | send (token : String)
  | tick
  | close
  deriving DecidableEq

/-- Where `pushRequests` is at the end of the modelled run: `time.NewTicker`
panicked, it is waiting in its `select`, or it returned `err`. -/
inductive ProducerStatus where
  | panicked
  | waiting
  | returned (err : Option String)
  deriving DecidableEq

/-- The events of a run of `pushRequests` and its final status. -/
structure ProducerRun where
  events : List ProducerEvent
  status : ProducerStatus
  deriving DecidableEq

/-- The `for` loop of `pushRequests`, as a function of what its successive
`select`s receive. -/
def pushLoop (tokenSlice : List String) : List Select → ProducerRun
  | [] => ⟨tokenSlice.map .send, .waiting⟩
  | .tick :: rest =>
    let r := pushLoop tokenSlice rest
    ⟨tokenSlice.map .send ++ .tick :: r.events, r.status⟩
  | .ctxDone :: _ => ⟨tokenSlice.map .send ++ [.close], .returned none⟩

/-- Go `Client.pushRequests` with the flags `*tokens` and `*interval`.
`time.NewTicker` panics when its argument is not positive. -/
def pushRequests (tokens : String) (interval : Int) (selects : List Select) : ProducerRun :=
  let tokenSlice := Split tokens
  if tickerDuration interval ≤ 0 then ⟨[], .panicked⟩
  else pushLoop tokenSlice selects

/-! ## The pipeline: `Client.Run` -/

/-- The constant `concurrency`. -/
def concurrency : Nat := 3

/-- Go `sync.WaitGroup`, as its counter. -/
structure WaitGroup where
  counter : Int
  deriving DecidableEq

/-- Go `wg.Add(delta)`. -/
def WaitGroup.Add (wg : WaitGroup) (delta : Int) : WaitGroup := ⟨wg.counter + delta⟩

/-- Go `wg.Done()`. -/
def WaitGroup.Done (wg : WaitGroup) : WaitGroup := wg.Add (-1)

/-- Whether `wg.Wait()` returns: it blocks until the counter is zero. -/
def WaitGroup.waitReturns (wg : WaitGroup) : Bool := wg.counter == 0

/-- The wait group of `Run` and the wait groups held by the workers:
`doRequests` takes its `wg sync.WaitGroup` parameter by value, so each
`go c.doRequests(ctx, wg, ...)` hands the worker a copy. -/
structure Barrier where
  wg : WaitGroup
  workers : List WaitGroup
  deriving DecidableEq

/-- The loop `for i := 0; i < concurrency; i++ { wg.Add(1); go c.doRequests(ctx, wg, ...) }`
run `n` times from the state `b`. -/
def startWorkers : Nat → Barrier → Barrier
  | 0, b => b
  | n + 1, b => startWorkers n ⟨b.wg.Add 1, b.workers ++ [b.wg.Add 1]⟩

/-- Every worker has left its loop and run its deferred `wg.Done()`, on the
wait group it holds. -/
def workersDone (b : Barrier) : Barrier := ⟨b.wg, b.workers.map WaitGroup.Done⟩

/-- What `Run` does. -/
inductive RunEvent where
  | goDoRequests (wg : WaitGroup)
  | goLogPrices
  | producer (e : ProducerEvent)
  | closeResponses
  deriving DecidableEq

/-- Where `Run` is at the end of the modelled run: a panic went through it, it
is inside `pushRequests`, it is blocked in `wg.Wait()`, or it returned `err`. -/
inductive RunStatus where
  | panicked
  | inPushRequests
  | inWait
  | returned (err : Option String)
  deriving DecidableEq

/-- The events of a run of `Run` and its final status. -/
structure RunResult where
  events : List RunEvent
  status : RunStatus
  deriving DecidableEq

/-- Go `Client.Run` with the flags `*tokens` and `*interval`, as a function of
what the `select`s of `pushRequests` receive.  At `wg.Wait()` every worker is
taken to have finished already. -/
def Run (tokens : String) (interval : Int) (selects : List Select) : RunResult :=
  let b := startWorkers concurrency ⟨⟨0⟩, []⟩
  let p := pushRequests tokens interval selects
  let started := b.workers.map .goDoRequests ++ .goLogPrices :: p.events.map .producer
  match p.status with
  | .panicked => ⟨started, .panicked⟩
  | .waiting => ⟨started, .inPushRequests⟩
  | .returned _ =>
    if (workersDone b).wg.waitReturns then ⟨started ++ [.closeResponses], .returned none⟩
    else ⟨started, .inWait⟩

/-! ## Evaluation lemmas for the idealised arithmetic -/

namespace F64

theorem sub_def (a b : F64) : a - b = sub a b := rfl
theorem mul_def (a b : F64) : a * b = mul a b := rfl
theorem div_def (a b : F64) : a / b = div a b := rfl
theorem hundred_def : (100 : F64) = fin 100 := rfl

theorem fin_expr (a b : ℚ) (ha : a ≠ 0) :
    (fin b - fin a) / fin a * 100 = fin ((b - a) / a * 100) := by
  simp [sub_def, mul_def, div_def, hundred_def, sub, mul, div, ha]

theorem zero_div_not_finite (v : F64) : ((v - fin 0) / fin 0 * 100).isFinite = false := by
  cases v with
  | fin a =>
    by_cases h : a = 0
    · simp [sub_def, mul_def, div_def, hundred_def, sub, mul, div, h, isFinite]
    · have h100 : ¬ ((100 : ℚ) < 0) := by norm_num
      by_cases h2 : a < 0 <;>
        simp [sub_def, mul_def, div_def, hundred_def, sub, mul, div, h, h2, inf, isFinite, h100]
  | posInf =>
    have h100 : ¬ ((100 : ℚ) < 0) := by norm_num
    simp [sub_def, mul_def, div_def, hundred_def, sub, mul, div, inf, isFinite, h100]
  | negInf => simp [sub_def, mul_def, div_def, hundred_def, sub, mul, div, inf, isFinite]
  | nan => simp [sub_def, mul_def, div_def, hundred_def, sub, mul, div, isFinite]

end F64

/-! ## Lemmas on the loop of `logPrices` -/

section logPricesLemmas

variable {F : Type} [Sub F] [Div F] [Mul F] [OfNat F 100]

theorem logPricesLoop_append (prices : Prices F) (pre rest : List (PriceResponse F × Bool))
    (hpre : ∀ x ∈ pre, x.2 = false) :
    logPricesLoop prices (pre ++ rest) =
      logPricesLoop prices pre ++ logPricesLoop (logPricesFinal prices pre) rest := by
  induction pre generalizing prices with
  | nil => simp [logPricesLoop, logPricesFinal]
  | cons x xs ih =>
    obtain ⟨r, d⟩ := x
    have hd : d = false := hpre (r, d) (by simp)
    subst hd
    have hxs : ∀ y ∈ xs, y.2 = false := fun y hy => hpre y (by simp [hy])
    simp [logPricesLoop, logPricesFinal, ih _ hxs]

theorem logPricesLoop_length (prices : Prices F) (pre : List (PriceResponse F × Bool))
    (hpre : ∀ x ∈ pre, x.2 = false) :
    (logPricesLoop prices pre).length = pre.length := by
  induction pre generalizing prices with
  | nil => simp [logPricesLoop]
  | cons x xs ih =>
    obtain ⟨r, d⟩ := x
    have hd : d = false := hpre (r, d) (by simp)
    subst hd
    have hxs : ∀ y ∈ xs, y.2 = false := fun y hy => hpre y (by simp [hy])
    simp [logPricesLoop, ih _ hxs]

theorem logPricesFinal_append (prices : Prices F) (pre rest : List (PriceResponse F × Bool))
    (hpre : ∀ x ∈ pre, x.2 = false) :
    logPricesFinal prices (pre ++ rest) = logPricesFinal (logPricesFinal prices pre) rest := by
  induction pre generalizing prices with
  | nil => simp [logPricesFinal]
  | cons x xs ih =>
    obtain ⟨r, d⟩ := x
    have hd : d = false := hpre (r, d) (by simp)
    subst hd
    have hxs : ∀ y ∈ xs, y.2 = false := fun y hy => hpre y (by simp [hy])
    simp [logPricesFinal, ih _ hxs]

theorem logPricesFinal_other (prices : Prices F) (mid : List (PriceResponse F × Bool))
    (k : String) (hmid : ∀ x ∈ mid, x.1.Token ≠ k) :
    logPricesFinal prices mid k = prices k := by
  induction mid generalizing prices with
  | nil => simp [logPricesFinal]
  | cons x xs ih =>
    obtain ⟨r, d⟩ := x
    have hr : r.Token ≠ k := hmid (r, d) (by simp)
    have hxs : ∀ y ∈ xs, y.1.Token ≠ k := fun y hy => hmid y (by simp [hy])
    have hstep : (logPricesStep prices r).2 k = prices k := by
      simp [logPricesStep, Prices.set, Ne.symm hr]
    cases d with
    | true => simp [logPricesFinal, hstep]
    | false => simp [logPricesFinal, ih _ hxs, hstep]

theorem logPricesLoop_at (prices : Prices F) (pre post : List (PriceResponse F × Bool))
    (r : PriceResponse F) (d : Bool) (hpre : ∀ x ∈ pre, x.2 = false) :
    (logPricesLoop prices (pre ++ (r, d) :: post))[pre.length]? =
      some (logPricesStep (logPricesFinal prices pre) r).1 := by
  rw [logPricesLoop_append prices pre _ hpre]
  have hlen := logPricesLoop_length prices pre hpre
  rw [List.getElem?_append_right (by omega)]
  simp [hlen, logPricesLoop]

theorem logPricesFinal_last (prices : Prices F) (pre mid : List (PriceResponse F × Bool))
    (k : String) (v : F) (hpre : ∀ x ∈ pre, x.2 = false)
    (hmid : ∀ x ∈ mid, x.1.Token ≠ k) :
    logPricesFinal prices (pre ++ (⟨k, v⟩, false) :: mid) k = some v := by
  rw [logPricesFinal_append prices pre _ hpre]
  simp [logPricesFinal, logPricesFinal_other _ mid k hmid, logPricesStep, Prices.set]

theorem logPricesFinal_none (pre : List (PriceResponse F × Bool)) (k : String)
    (hpre : ∀ x ∈ pre, x.2 = false) :
    logPricesFinal Prices.empty pre k = none ↔ ∀ x ∈ pre, x.1.Token ≠ k := by
  induction pre using List.reverseRecOn with
  | nil => simp [logPricesFinal, Prices.empty]
  | append_singleton xs x ih =>
    obtain ⟨r, d⟩ := x
    have hxs : ∀ y ∈ xs, y.2 = false := fun y hy => hpre y (by simp [hy])
    rw [logPricesFinal_append _ xs _ hxs]
    by_cases hk : k = r.Token
    · subst hk
      have h1 : logPricesFinal (logPricesFinal Prices.empty xs) [(r, d)] r.Token
          = some r.Price := by
        cases d <;> simp [logPricesFinal, logPricesStep, Prices.set]
      rw [h1]
      constructor
      · intro h; cases h
      · intro h
        exact absurd rfl (h (r, d) (by simp))
    · have h1 : logPricesFinal (logPricesFinal Prices.empty xs) [(r, d)] k
          = logPricesFinal Prices.empty xs k := by
        cases d <;> simp [logPricesFinal, logPricesStep, Prices.set, hk]
      rw [h1, ih hxs]
      constructor
      · intro h y hy
        rcases List.mem_append.1 hy with hy | hy
        · exact h y hy
        · simp at hy; subst hy; exact fun h2 => hk h2.symm
      · intro h y hy
        exact h y (List.mem_append.2 (Or.inl hy))

theorem logPrices_at_second (pre mid post : List (PriceResponse F × Bool)) (k : String)
    (v1 v2 : F) (d : Bool) (hpre : ∀ x ∈ pre, x.2 = false)
    (hmid : ∀ x ∈ mid, x.2 = false ∧ x.1.Token ≠ k) :
    (logPrices (pre ++ (⟨k, v1⟩, false) :: (mid ++ (⟨k, v2⟩, d) :: post)))[pre.length + 1 + mid.length]?
      = some ⟨k, v2, some (v1, (v2 - v1) / v1 * 100)⟩ := by
  have hlive : ∀ x ∈ pre ++ (⟨k, v1⟩, false) :: mid, x.2 = false := by
    intro x hx
    rcases List.mem_append.1 hx with hx | hx
    · exact hpre x hx
    · rcases List.mem_cons.1 hx with hx | hx
      · subst hx; rfl
      · exact (hmid x hx).1
  have hlast := logPricesFinal_last Prices.empty pre mid k v1 hpre (fun x hx => (hmid x hx).2)
  have hat := logPricesLoop_at Prices.empty (pre ++ (⟨k, v1⟩, false) :: mid) post ⟨k, v2⟩ d hlive
  have hlen : (pre ++ (⟨k, v1⟩, false) :: mid).length = pre.length + 1 + mid.length := by
    simp; omega
  rw [hlen] at hat
  have hlist : pre ++ (⟨k, v1⟩, false) :: mid ++ (⟨k, v2⟩, d) :: post
      = pre ++ (⟨k, v1⟩, false) :: (mid ++ (⟨k, v2⟩, d) :: post) := by simp
  rw [hlist] at hat
  rw [logPrices, hat]
  simp [logPricesStep, changeStr, hlast]

end logPricesLemmas

/-! ## The claims on `logPrices` -/

/-- C1: when two results for the same key `k` are delivered to `logPrices` in
sequence (no result for `k` in between, the context not done before the second
is received) with values `v1` then `v2`, the record logged for the second one
carries the previous value `v1` and the change `(v2 - v1) / v1 * 100`, computed
in the arithmetic of the values; in the idealised arithmetic, for finite
values `a ≠ 0` then `b`, that change is the exact number `(b - a) / a * 100`. -/
theorem logPrices_percent_change {F : Type} [Sub F] [Div F] [Mul F] [OfNat F 100]
    (pre mid post : List (PriceResponse F × Bool)) (k : String) (v1 v2 : F) (d : Bool)
    (a b : ℚ) (hpre : ∀ x ∈ pre, x.2 = false)
    (hmid : ∀ x ∈ mid, x.2 = false ∧ x.1.Token ≠ k) (ha : a ≠ 0) :
    (logPrices (pre ++ (⟨k, v1⟩, false) :: (mid ++ (⟨k, v2⟩, d) :: post)))[pre.length + 1 + mid.length]?
        = some ⟨k, v2, some (v1, (v2 - v1) / v1 * 100)⟩ ∧
      (F64.fin b - F64.fin a) / F64.fin a * 100 = F64.fin ((b - a) / a * 100) :=
  ⟨logPrices_at_second pre mid post k v1 v2 d hpre hmid, F64.fin_expr a b ha⟩

/-- C1, witness: BTC 100, ETH 200, BTC 110, ETH 190; the record for BTC 110
carries the previous value 100 and the change +10, the record for ETH 190 the
previous value 200 and the change -5. -/
theorem logPrices_percent_change_witness :
    (logPrices [(⟨"BTC", F64.fin 100⟩, false), (⟨"ETH", F64.fin 200⟩, false),
        (⟨"BTC", F64.fin 110⟩, false), (⟨"ETH", F64.fin 190⟩, false)])[2]?
        = some ⟨"BTC", F64.fin 110, some (F64.fin 100, F64.fin 10)⟩ ∧
      (logPrices [(⟨"BTC", F64.fin 100⟩, false), (⟨"ETH", F64.fin 200⟩, false),
        (⟨"BTC", F64.fin 110⟩, false), (⟨"ETH", F64.fin 190⟩, false)])[3]?
        = some ⟨"ETH", F64.fin 190, some (F64.fin 200, F64.fin (-5))⟩ := by
  have h := logPrices_percent_change [] [(⟨"ETH", F64.fin 200⟩, false)]
    [(⟨"ETH", F64.fin 190⟩, false)] "BTC" (F64.fin 100) (F64.fin 110) false 100 110
    (by simp) (by simp) (by norm_num)
  have g := logPrices_percent_change [(⟨"BTC", F64.fin 100⟩, false)]
    [(⟨"BTC", F64.fin 110⟩, false)] [] "ETH" (F64.fin 200) (F64.fin 190) false 200 190
    (by simp) (by simp) (by norm_num)
  have h10 : ((110 : ℚ) - 100) / 100 * 100 = 10 := by norm_num
  have g5 : ((190 : ℚ) - 200) / 200 * 100 = -5 := by norm_num
  rw [h.2, h10] at h
  rw [g.2, g5] at g
  exact ⟨by simpa using h.1, by simpa using g.1⟩

/-- C2, counterexample: with a previous value of exactly zero the record for
the next result of that key does carry a change figure, and it is `+Inf`. -/
theorem logPrices_zero_previous_counterexample :
    logPrices [(⟨"BTC", F64.fin 0⟩, false), (⟨"BTC", F64.fin 5⟩, false)]
      = [⟨"BTC", F64.fin 0, none⟩,
         ⟨"BTC", F64.fin 5, some (F64.fin 0, F64.posInf)⟩] := by
  have h100 : ¬ ((100 : ℚ) < 0) := by norm_num
  have h5 : ¬ ((5 : ℚ) < 0) := by norm_num
  simp [logPrices, logPricesLoop, logPricesStep, changeStr, Prices.set, Prices.empty,
    F64.sub_def, F64.mul_def, F64.div_def, F64.hundred_def, F64.sub, F64.div, F64.mul,
    F64.inf, h100, h5]

/-- C2, amended: when the previously observed value of the key is exactly
zero, the record logged for the next result of that key still carries the
previous value and a change figure, computed as `(v2 - 0) / 0 * 100` without
any zero guard; in the idealised arithmetic that figure is never finite (it is
an infinity or NaN). -/
theorem logPrices_zero_previous
    (pre mid post : List (PriceResponse F64 × Bool)) (k : String) (v2 : F64) (d : Bool)
    (hpre : ∀ x ∈ pre, x.2 = false) (hmid : ∀ x ∈ mid, x.2 = false ∧ x.1.Token ≠ k) :
    (logPrices (pre ++ (⟨k, F64.fin 0⟩, false) :: (mid ++ (⟨k, v2⟩, d) :: post)))[pre.length + 1 + mid.length]?
        = some ⟨k, v2, some (F64.fin 0, (v2 - F64.fin 0) / F64.fin 0 * 100)⟩ ∧
      ((v2 - F64.fin 0) / F64.fin 0 * 100).isFinite = false :=
  ⟨logPrices_at_second pre mid post k (F64.fin 0) v2 d hpre hmid, F64.zero_div_not_finite v2⟩

/-- C2, witness: ETH 0, BTC 7, ETH -3; the record for ETH -3 carries the
previous value 0 and a change that is not finite. -/
theorem logPrices_zero_previous_witness :
    (logPrices [(⟨"ETH", F64.fin 0⟩, false), (⟨"BTC", F64.fin 7⟩, false),
        (⟨"ETH", F64.fin (-3)⟩, true)])[0 + 1 + 1]?
        = some ⟨"ETH", F64.fin (-3),
            some (F64.fin 0, (F64.fin (-3) - F64.fin 0) / F64.fin 0 * 100)⟩ ∧
      ((F64.fin (-3) - F64.fin 0) / F64.fin 0 * 100).isFinite = false :=
  logPrices_zero_previous [] [(⟨"BTC", F64.fin 7⟩, false)] [] "ETH" (F64.fin (-3)) true
    (by simp) (by simp)

/-- C3: for a result `r` received by `logPrices` after the results `pre` (the
context not done before), the record logged for `r` carries `r`'s key and
value; it carries a previous value exactly when some result of `pre` has the
same key, and that previous value is the value of the most recent such result,
whatever results for other keys came in between; one iteration sets the entry of
the result's key to its value and leaves every other entry unchanged; and two
results for different keys give the same two records in either order. -/
theorem logPrices_previous_value {F : Type} [Sub F] [Div F] [Mul F] [OfNat F 100]
    (pre post : List (PriceResponse F × Bool)) (r : PriceResponse F) (d : Bool)
    (prices : Prices F) (a b : PriceResponse F) (da db : Bool)
    (hpre : ∀ x ∈ pre, x.2 = false) (hab : a.Token ≠ b.Token) :
    (∃ rec, (logPrices (pre ++ (r, d) :: post))[pre.length]? = some rec ∧
        rec.token = r.Token ∧ rec.price = r.Price ∧
        (rec.change.isSome = true ↔ ∃ x ∈ pre, x.1.Token = r.Token) ∧
        (∀ (p mid : List (PriceResponse F × Bool)) (v : F),
          pre = p ++ (⟨r.Token, v⟩, false) :: mid → (∀ x ∈ mid, x.1.Token ≠ r.Token) →
          rec.change = some (v, (r.Price - v) / v * 100))) ∧
      ((logPricesStep prices r).2 r.Token = some r.Price ∧
        ∀ k, k ≠ r.Token → (logPricesStep prices r).2 k = prices k) ∧
      (logPricesLoop prices [(a, false), (b, db)]
          = [(logPricesStep prices a).1, (logPricesStep prices b).1] ∧
        logPricesLoop prices [(b, false), (a, da)]
          = [(logPricesStep prices b).1, (logPricesStep prices a).1]) := by
  refine ⟨⟨(logPricesStep (logPricesFinal Prices.empty pre) r).1, ?_, rfl, rfl, ?_, ?_⟩,
    ⟨?_, ?_⟩, ?_, ?_⟩
  · exact logPricesLoop_at Prices.empty pre post r d hpre
  · have hnone := logPricesFinal_none pre r.Token hpre
    cases hfin : logPricesFinal Prices.empty pre r.Token with
    | none =>
      have hall := hnone.1 hfin
      simp only [logPricesStep, changeStr, hfin]
      constructor
      · intro h; cases h
      · rintro ⟨x, hx, hxk⟩; exact absurd hxk (hall x hx)
    | some v =>
      simp only [logPricesStep, changeStr, hfin]
      constructor
      · intro _
        by_contra hne
        have hall : ∀ x ∈ pre, x.1.Token ≠ r.Token := by
          intro x hx hxk; exact hne ⟨x, hx, hxk⟩
        rw [hnone.2 hall] at hfin
        cases hfin
      · intro _; rfl
  · intro p mid v hp hmid
    have hpl : ∀ x ∈ p, x.2 = false := by
      intro x hx; exact hpre x (by rw [hp]; exact List.mem_append.2 (Or.inl hx))
    have hlast := logPricesFinal_last Prices.empty p mid r.Token v hpl hmid
    rw [← hp] at hlast
    simp [logPricesStep, changeStr, hlast]
  · simp [logPricesStep, Prices.set]
  · intro k hk
    simp [logPricesStep, Prices.set, hk]
  · have h1 : prices.set a.Token a.Price b.Token = prices b.Token := by
      simp [Prices.set, Ne.symm hab]
    simp [logPricesLoop, logPricesStep, changeStr, h1]
  · have h1 : prices.set b.Token b.Price a.Token = prices a.Token := by
      simp [Prices.set, hab]
    simp [logPricesLoop, logPricesStep, changeStr, h1]

/-- C3, witness: after BTC 100, ETH 200, the result BTC 110 (then ETH 190);
and the two results BTC 100, ETH 200 in either order from the empty map. -/
theorem logPrices_previous_value_witness :
    (∃ rec, (logPrices ([(⟨"BTC", F64.fin 100⟩, false), (⟨"ETH", F64.fin 200⟩, false)] ++
            (⟨"BTC", F64.fin 110⟩, false) :: [(⟨"ETH", F64.fin 190⟩, false)]))[2]? = some rec ∧
        rec.token = "BTC" ∧ rec.price = F64.fin 110 ∧
        (rec.change.isSome = true ↔
          ∃ x ∈ [((⟨"BTC", F64.fin 100⟩ : PriceResponse F64), false),
            (⟨"ETH", F64.fin 200⟩, false)], x.1.Token = "BTC") ∧
        (∀ (p mid : List (PriceResponse F64 × Bool)) (v : F64),
          [((⟨"BTC", F64.fin 100⟩ : PriceResponse F64), false), (⟨"ETH", F64.fin 200⟩, false)]
            = p ++ (⟨"BTC", v⟩, false) :: mid → (∀ x ∈ mid, x.1.Token ≠ "BTC") →
          rec.change = some (v, (F64.fin 110 - v) / v * 100))) ∧
      ((logPricesStep Prices.empty (⟨"BTC", F64.fin 110⟩ : PriceResponse F64)).2 "BTC"
          = some (F64.fin 110) ∧
        ∀ k, k ≠ "BTC" →
          (logPricesStep Prices.empty (⟨"BTC", F64.fin 110⟩ : PriceResponse F64)).2 k
            = Prices.empty k) ∧
      (logPricesLoop Prices.empty
            [((⟨"BTC", F64.fin 100⟩ : PriceResponse F64), false), (⟨"ETH", F64.fin 200⟩, true)]
          = [(logPricesStep Prices.empty (⟨"BTC", F64.fin 100⟩ : PriceResponse F64)).1,
             (logPricesStep Prices.empty (⟨"ETH", F64.fin 200⟩ : PriceResponse F64)).1] ∧
        logPricesLoop Prices.empty
            [((⟨"ETH", F64.fin 200⟩ : PriceResponse F64), false), (⟨"BTC", F64.fin 100⟩, true)]
          = [(logPricesStep Prices.empty (⟨"ETH", F64.fin 200⟩ : PriceResponse F64)).1,
             (logPricesStep Prices.empty (⟨"BTC", F64.fin 100⟩ : PriceResponse F64)).1]) :=
  logPrices_previous_value
    [(⟨"BTC", F64.fin 100⟩, false), (⟨"ETH", F64.fin 200⟩, false)]
    [(⟨"ETH", F64.fin 190⟩, false)] ⟨"BTC", F64.fin 110⟩ false Prices.empty
    ⟨"BTC", F64.fin 100⟩ ⟨"ETH", F64.fin 200⟩ true true (by simp) (by decide)

/-! ## Lemmas on the producer -/

theorem int64_eq (n : Int) (h1 : -9223372036854775808 ≤ n) (h2 : n ≤ 9223372036854775807) :
    int64 n = n := by
  unfold int64
  rw [Int.emod_eq_of_lt (by omega) (by omega)]
  omega

theorem tickerDuration_eq (interval : Int) (h1 : -9223372036 ≤ interval)
    (h2 : interval ≤ 9223372036) : tickerDuration interval = interval * 1000000000 := by
  unfold tickerDuration Second
  rw [int64_eq interval (by omega) (by omega), int64_eq _ (by omega) (by omega)]

theorem splitChars_ne_nil (sep : Char) (cs : List Char) : splitChars sep cs ≠ [] := by
  induction cs with
  | nil => simp [splitChars]
  | cons c cs ih =>
    unfold splitChars
    split
    · simp
    · split <;> simp

theorem pushLoop_ticks (tokenSlice : List String) (n : Nat) (rest : List Select) :
    pushLoop tokenSlice (List.replicate n .tick ++ rest) =
      ⟨(List.replicate n (tokenSlice.map .send ++ [.tick])).flatten ++
          (pushLoop tokenSlice rest).events, (pushLoop tokenSlice rest).status⟩ := by
  induction n with
  | zero => simp
  | succ n ih =>
    simp [List.replicate_succ, pushLoop, ih]

theorem pushRequests_of_pos (tokens : String) (interval : Int) (selects : List Select)
    (h : 0 < tickerDuration interval) :
    pushRequests tokens interval selects = pushLoop (Split tokens) selects := by
  have hpos : ¬ tickerDuration interval ≤ 0 := by omega
  simp [pushRequests, hpos]

theorem pushRequests_of_nonpos (tokens : String) (interval : Int) (selects : List Select)
    (h : tickerDuration interval ≤ 0) :
    pushRequests tokens interval selects = ⟨[], .panicked⟩ := by
  simp [pushRequests, h]

/-! ## The claims on `pushRequests` -/

/-- C4, counterexample: with three keys and the positive interval of
9223372037 seconds the duration overflows `int64` to a negative number,
`time.NewTicker` panics, and no work item is placed on the request channel. -/
theorem pushRequests_overflow_counterexample :
    0 < (9223372037 : Int) ∧ Split "BTC,ETH,USDT" = ["BTC", "ETH", "USDT"] ∧
      tickerDuration 9223372037 = -9223372036709551616 ∧
      pushRequests "BTC,ETH,USDT" 9223372037 [.tick, .tick] = ⟨[], .panicked⟩ := by
  decide

/-- C4, amended: for every interval whose ticker duration
`time.Duration(interval) * time.Second`, computed in `int64`, is positive (as
it is for every interval `i` of 1 to 9223372036 seconds), every polling cycle
of `pushRequests` sends exactly one work item per key of the key set, in the
order of the key set, and only then waits for the timer or for cancellation;
this holds for each of the `n` cycles ended by a tick and for the last cycle,
ended by cancellation (followed by the close of the channel and the return of
nil) or still waiting. -/
theorem pushRequests_cycle (tokens : String) (interval : Int) (n : Nat) (rest : List Select)
    (i : Int) (h : 0 < tickerDuration interval) (hi1 : 0 < i) (hi2 : i ≤ 9223372036) :
    pushRequests tokens interval (List.replicate n .tick) =
        ⟨(List.replicate n ((Split tokens).map .send ++ [.tick])).flatten ++
            (Split tokens).map .send, .waiting⟩ ∧
      pushRequests tokens interval (List.replicate n .tick ++ .ctxDone :: rest) =
        ⟨(List.replicate n ((Split tokens).map .send ++ [.tick])).flatten ++
            ((Split tokens).map .send ++ [.close]), .returned none⟩ ∧
      ((Split tokens).map ProducerEvent.send).length = (Split tokens).length ∧
      0 < tickerDuration i := by
  refine ⟨?_, ?_, by simp, ?_⟩
  · rw [pushRequests_of_pos tokens interval _ h]
    have h := pushLoop_ticks (Split tokens) n []
    simpa [pushLoop] using h
  · rw [pushRequests_of_pos tokens interval _ h, pushLoop_ticks]
    simp [pushLoop]
  · rw [tickerDuration_eq i (by omega) hi2]
    omega

/-- C4, witness: keys BTC, ETH, USDT, interval 3 seconds, two ticks. -/
theorem pushRequests_cycle_witness :
    pushRequests "BTC,ETH,USDT" 3 (List.replicate 2 .tick) =
        ⟨(List.replicate 2 ((Split "BTC,ETH,USDT").map .send ++ [.tick])).flatten ++
            (Split "BTC,ETH,USDT").map .send, .waiting⟩ ∧
      pushRequests "BTC,ETH,USDT" 3 (List.replicate 2 .tick ++ .ctxDone :: [.tick]) =
        ⟨(List.replicate 2 ((Split "BTC,ETH,USDT").map .send ++ [.tick])).flatten ++
            ((Split "BTC,ETH,USDT").map .send ++ [.close]), .returned none⟩ ∧
      ((Split "BTC,ETH,USDT").map ProducerEvent.send).length = (Split "BTC,ETH,USDT").length ∧
      0 < tickerDuration 9223372036 :=
  pushRequests_cycle "BTC,ETH,USDT" 3 2 [.tick] 9223372036 (by decide) (by decide) (by decide)

/-- C9, counterexample: with the empty string as tokens configuration the
token slice is `[""]`, and each polling cycle sends one work item, carrying the
empty token. -/
theorem pushRequests_empty_tokens_counterexample :
    Split "" = [""] ∧
      pushRequests "" 3 [.tick, .tick] =
        ⟨[.send "", .tick, .send "", .tick, .send ""], .waiting⟩ := by
  decide

/-- C9, amended: if the token slice is empty, each polling cycle of the loop of
`pushRequests` sends no work item: it only waits for the timer or for
cancellation, and on cancellation it closes the channel and returns nil.  No
tokens configuration gives an empty token slice. -/
theorem pushLoop_empty_keys (n : Nat) (rest : List Select) (tokens : String) :
    pushLoop [] (List.replicate n .tick) = ⟨List.replicate n .tick, .waiting⟩ ∧
      pushLoop [] (List.replicate n .tick ++ .ctxDone :: rest) =
        ⟨List.replicate n .tick ++ [.close], .returned none⟩ ∧
      Split tokens ≠ [] := by
  have hflat : (List.replicate n [ProducerEvent.tick]).flatten = List.replicate n .tick := by
    induction n with
    | zero => simp
    | succ n ih => simp [List.replicate_succ, ih]
  refine ⟨?_, ?_, ?_⟩
  · have h := pushLoop_ticks [] n []
    simp only [List.append_nil, List.map_nil, List.nil_append, hflat] at h
    rw [h]
    simp [pushLoop]
  · rw [pushLoop_ticks]
    simp [pushLoop, hflat]
  · intro h
    unfold Split at h
    exact splitChars_ne_nil ',' tokens.data (List.map_eq_nil_iff.1 h)

/-! ## Lemmas on the worker -/

theorem getPrice_failures_then (F : Type) (errs : List (Bool × String))
    (rest : List (Attempt F)) :
    getPrice (failures F errs ++ rest) =
      ⟨errs.length + (getPrice rest).attempts, errs.length + (getPrice rest).waits,
        (getPrice rest).ret⟩ := by
  induction errs with
  | nil => simp [failures]
  | cons e es ih =>
    have h : failures F (e :: es) ++ rest = ⟨e.1, .error e.2⟩ :: (failures F es ++ rest) := by
      simp [failures]
    rw [h, getPrice, ih]
    simp
    omega

theorem getPrice_ret_nil {F : Type} (calls : List (Attempt F)) (p : F) (err : Option String)
    (h : (getPrice calls).ret = some (p, err)) : err = none := by
  induction calls with
  | nil => simp [getPrice] at h
  | cons c cs ih =>
    obtain ⟨cd, res⟩ := c
    cases res with
    | error e => exact ih (by simpa [getPrice] using h)
    | ok v =>
      simp [getPrice] at h
      exact h.2.symm

theorem doRequests_not_fatal {F : Type} (items : List (WorkItem F)) (msg : String) :
    (doRequests items).status ≠ .fatal msg := by
  induction items with
  | nil => simp [doRequests]
  | cons item rest ih =>
    unfold doRequests
    cases hret : (getPrice item.calls).ret with
    | none => simp [hret]
    | some pe =>
      obtain ⟨price, err⟩ := pe
      have herr := getPrice_ret_nil item.calls price err hret
      subst herr
      by_cases hd : item.ctxDone = true
      · simp [hret, hd]
      · simp [hret, hd, ih]

/-! ## The claims on `getPrice` and `doRequests` -/

/-- C5: if `pricer.Price` fails exactly `K` times (the length of `errs`) and
then succeeds with the value `p`, `getPrice` makes exactly `K + 1` calls and
`K` backoff waits and returns `p` with a nil error; the worker sends exactly one
response for that work item, carrying the item's token and `p`, before it
exits or goes on with the next items; and while every call has failed, no
response has been sent. -/
theorem getPrice_retry (F : Type) (errs : List (Bool × String)) (c : Bool) (p : F)
    (rest : List (Attempt F)) (token : String) (more : List (WorkItem F)) :
    getPrice (failures F errs ++ ⟨c, .ok p⟩ :: rest) =
        ⟨errs.length + 1, errs.length, some (p, none)⟩ ∧
      doRequests [⟨token, failures F errs ++ ⟨c, .ok p⟩ :: rest, false⟩] =
        ⟨[⟨token, p⟩], errs.length + 1, .exited⟩ ∧
      doRequests (⟨token, failures F errs ++ ⟨c, .ok p⟩ :: rest, true⟩ :: more) =
        ⟨[⟨token, p⟩], errs.length + 1, .exited⟩ ∧
      doRequests (⟨token, failures F errs ++ ⟨c, .ok p⟩ :: rest, false⟩ :: more) =
        ⟨⟨token, p⟩ :: (doRequests more).responses,
          errs.length + 1 + (doRequests more).attempts, (doRequests more).status⟩ ∧
      doRequests (⟨token, failures F errs, false⟩ :: more) =
        ⟨[], errs.length, .inGetPrice⟩ := by
  have hg : getPrice (failures F errs ++ ⟨c, .ok p⟩ :: rest) =
      ⟨errs.length + 1, errs.length, some (p, none)⟩ := by
    rw [getPrice_failures_then]; simp [getPrice]
  have hf : getPrice (failures F errs) = ⟨errs.length, errs.length, none⟩ := by
    have h := getPrice_failures_then F errs []
    simpa [getPrice] using h
  refine ⟨hg, ?_, ?_, ?_, ?_⟩
  · simp [doRequests, hg]
  · simp [doRequests, hg]
  · simp [doRequests, hg]
  · simp [doRequests, hf]

/-- C6: whenever `getPrice` returns, its error is nil, and no run of
`doRequests` reaches `log.Fatalf`: a failed call never ends the worker or the
process. -/
theorem getPrice_error_nil {F : Type} (calls : List (Attempt F)) (p : F) (err : Option String)
    (items : List (WorkItem F)) (msg : String)
    (h : (getPrice calls).ret = some (p, err)) :
    err = none ∧ (doRequests items).status ≠ .fatal msg :=
  ⟨getPrice_ret_nil calls p err h, doRequests_not_fatal items msg⟩

/-- C6, witness: two failed calls, then a reply with price 7. -/
theorem getPrice_error_nil_witness :
    (none : Option String) = none ∧
      (doRequests [(⟨"BTC", [⟨false, .error "deadline exceeded"⟩, ⟨false, .ok (7 : Int)⟩],
        false⟩ : WorkItem Int)]).status ≠ .fatal "getPrice" :=
  getPrice_error_nil
    [⟨false, .error "deadline exceeded"⟩, ⟨false, .error "unavailable"⟩, ⟨false, .ok (7 : Int)⟩]
    7 none _ "getPrice" (by simp [getPrice])

/-- C7, the code at the failing inputs: with the context done before the first
call, and with the context done during the first backoff wait, `getPrice`
goes on calling `pricer.Price` (`n` calls and waits for every `n`) and the
worker stays inside `getPrice` instead of leaving its loop; and when a call
made after cancellation succeeds, the worker sends a response for the item. -/
theorem getPrice_ignores_cancellation (n : Nat) (p : Int) :
    getPrice (failures Int (List.replicate n (true, "context canceled"))) = ⟨n, n, none⟩ ∧
      doRequests [⟨"BTC", failures Int (List.replicate n (true, "context canceled")), true⟩] =
        ⟨[], n, .inGetPrice⟩ ∧
      getPrice (failures Int ((false, "deadline exceeded") ::
          List.replicate n (true, "context canceled"))) = ⟨n + 1, n + 1, none⟩ ∧
      doRequests [⟨"BTC", [⟨false, .error "deadline exceeded"⟩, ⟨true, .ok p⟩], true⟩] =
        ⟨[⟨"BTC", p⟩], 2, .exited⟩ := by
  have h1 : getPrice (failures Int (List.replicate n (true, "context canceled")))
      = ⟨n, n, none⟩ := by
    have h := getPrice_failures_then Int (List.replicate n (true, "context canceled")) []
    rw [List.append_nil] at h
    rw [h]; simp [getPrice]
  have h2 : getPrice (failures Int ((false, "deadline exceeded") ::
      List.replicate n (true, "context canceled"))) = ⟨n + 1, n + 1, none⟩ := by
    have h := getPrice_failures_then Int
      ((false, "deadline exceeded") :: List.replicate n (true, "context canceled")) []
    rw [List.append_nil] at h
    rw [h]; simp [getPrice]
  refine ⟨h1, ?_, h2, ?_⟩
  · simp [doRequests, h1]
  · simp [doRequests, getPrice]

/-! ## The claims on `Run` -/

/-- C8, the code: after `Run` has started its three workers and each worker has
run its deferred `wg.Done()`, the counter of the wait group of `Run` is still 3
(each worker decremented its own copy), so `wg.Wait()` does not return; in no
run does `Run` close the response channel or return. -/
theorem Run_barrier_never_fires (tokens : String) (interval : Int) (selects : List Select)
    (err : Option String) :
    workersDone (startWorkers concurrency ⟨⟨0⟩, []⟩) = ⟨⟨3⟩, [⟨0⟩, ⟨1⟩, ⟨2⟩]⟩ ∧
      (workersDone (startWorkers concurrency ⟨⟨0⟩, []⟩)).wg.waitReturns = false ∧
      RunEvent.closeResponses ∉ (Run tokens interval selects).events ∧
      (Run tokens interval selects).status ≠ .returned err := by
  have hb : (workersDone (startWorkers concurrency ⟨⟨0⟩, []⟩)).wg.waitReturns = false := by
    decide
  refine ⟨by decide, hb, ?_, ?_⟩
  · unfold Run
    simp only [hb]
    generalize (pushRequests tokens interval selects).status = st
    cases st <;> simp [startWorkers, concurrency]
  · unfold Run
    simp only [hb]
    generalize (pushRequests tokens interval selects).status = st
    cases st <;> simp

/-- C10, counterexample: with an interval of 0 seconds `Run` starts the three
workers and the aggregator, and then panics in `time.NewTicker`; it returns no
error. -/
theorem Run_zero_interval_counterexample :
    Run "BTC,ETH,USDT" 0 [.tick, .ctxDone] =
      ⟨[.goDoRequests ⟨1⟩, .goDoRequests ⟨2⟩, .goDoRequests ⟨3⟩, .goLogPrices], .panicked⟩ := by
  decide

/-- C10, amended: for every interval whose ticker duration, computed in
`int64`, is zero or negative (as it is for every interval `i` of 0 down to
-9223372036 seconds) `Run` returns no error: it starts the three workers and
the aggregator, then `time.NewTicker` panics in `pushRequests` before any work
item is sent, so that no polling loop runs; and `Run` never returns a non-nil
error, whatever the configuration. -/
theorem Run_nonpositive_interval (tokens : String) (interval : Int) (selects : List Select)
    (tokens2 : String) (interval2 : Int) (selects2 : List Select) (msg : String) (i : Int)
    (h : tickerDuration interval ≤ 0) (hi1 : -9223372036 ≤ i) (hi2 : i ≤ 0) :
    Run tokens interval selects =
        ⟨[.goDoRequests ⟨1⟩, .goDoRequests ⟨2⟩, .goDoRequests ⟨3⟩, .goLogPrices], .panicked⟩ ∧
      (Run tokens2 interval2 selects2).status ≠ .returned (some msg) ∧
      tickerDuration i ≤ 0 := by
  refine ⟨?_, ?_, ?_⟩
  · unfold Run
    rw [pushRequests_of_nonpos tokens interval selects h]
    simp [startWorkers, concurrency, WaitGroup.Add]
  · cases hst : (pushRequests tokens2 interval2 selects2).status with
    | panicked => simp [Run, hst]
    | waiting => simp [Run, hst]
    | returned e =>
      simp only [Run, hst]
      split <;> simp
  · rw [tickerDuration_eq i hi1 (by omega)]
    omega

/-- C10, witness: interval -5 seconds; the default configuration; and the
interval -9223372036 seconds. -/
theorem Run_nonpositive_interval_witness :
    Run "BTC,ETH,USDT" (-5) [.tick] =
        ⟨[.goDoRequests ⟨1⟩, .goDoRequests ⟨2⟩, .goDoRequests ⟨3⟩, .goLogPrices], .panicked⟩ ∧
      (Run "BTC,ETH,USDT" 3 [.ctxDone]).status ≠ .returned (some "invalid interval") ∧
      tickerDuration (-9223372036) ≤ 0 :=
  Run_nonpositive_interval "BTC,ETH,USDT" (-5) [.tick] "BTC,ETH,USDT" 3 [.ctxDone]
    "invalid interval" (-9223372036) (by decide) (by decide) (by decide)

end Pricer
